import Mathlib

/-
Verification of the graph-visualization backend (logseqSpringThing).

Shallow embedding conventions:
- f32 scalar values (positions, velocities, deadbands) are modelled as exact
  rationals.  All numeric claims verified here involve only comparisons and
  additions of such values, where f32 and exact arithmetic agree on the
  integer-valued data the program actually produces (edge weights are sums of
  usize reference counts, exact in f32 below 2^24).
- u8 / u16 / usize are modelled as Nat; where overflow or saturation matters
  (the `as u8` cast, the usize subtraction in pagination) it is modelled
  explicitly.
- HashMap / HashSet are modelled as association lists; their nondeterministic
  iteration order is captured by quantifying over permutations of the
  corresponding key list.
- The random jitter of the initial-position seeding and the transcendental
  f32 math (log10, sin, cos, acos) are abstracted as function parameters;
  theorems quantify over all their values.
-/

namespace SpringThing

/-- `Vec3Data` (src/src/types/vec3.rs usage): an (x, y, z) triple of f32,
modelled over the rationals. -/
structure Vec3Data where
  x : ℚ
  y : ℚ
  z : ℚ
deriving DecidableEq, Repr

/-- The zero vector, `[0.0, 0.0, 0.0]` in the source. -/
def Vec3Data.zero : Vec3Data := ⟨0, 0, 0⟩

/-- `NodeData` (src/src/utils/socket_flow_messages.rs): the 26-byte physics
record: position, velocity, quantized u8 mass, u8 flags, 2 padding bytes. -/
structure NodeData where
  position : Vec3Data
  velocity : Vec3Data
  mass : ℕ
  flags : ℕ
  padding : ℕ × ℕ
deriving DecidableEq, Repr

/-- `BinaryNodeData` as used by src/src/handlers/socket_flow_handler.rs: the
per-node payload carried on the wire; only position and velocity are ever
read back from an inbound record. -/
structure BinaryNodeData where
  position : Vec3Data
  velocity : Vec3Data
  mass : ℕ
  flags : ℕ
  padding : ℕ × ℕ
deriving DecidableEq, Repr

/-- `Node` (src/src/models/node.rs): string id, label, physics record,
document-derived metadata, file size and rendering hints. -/
structure Node where
  id : String
  label : String
  data : NodeData
  metadata : List (String × String)
  file_size : ℕ
  node_type : Option String
  size : Option ℚ
  color : Option String
  weight : Option ℚ
  group : Option String
deriving DecidableEq, Repr

/-- `Node::new` (src/src/models/node.rs:36-56): zero position and velocity,
mass 0, flags 1 (active by default). -/
def Node.new (id : String) : Node :=
  { id := id
    label := id
    data :=
      { position := Vec3Data.zero
        velocity := Vec3Data.zero
        mass := 0
        flags := 1
        padding := (0, 0) }
    metadata := []
    file_size := 0
    node_type := none
    size := none
    color := none
    weight := none
    group := none }

/-- Rust's `as u8` cast on an f32 value: truncate toward zero and saturate
into [0, 255].  Negative inputs (and NaN) saturate to 0. -/
def rustF32ToU8 (q : ℚ) : ℕ :=
  if q < 0 then 0 else min 255 q.floor.toNat

/-- The mass computation of `Node::set_file_size` (src/src/models/node.rs:58-64)
applied to the already-computed base mass `log10((size + 1) as f32) / 4.0`:
clamp to [0.1, 10.0] (`.max(0.1).min(10.0)`), scale by 25.5, cast `as u8`,
then `.max(1)`. -/
def setFileSizeMass (baseMass : ℚ) : ℕ :=
  max (rustF32ToU8 (min (max baseMass (1/10)) 10 * (51/2))) 1

/-- `Node::set_file_size` (src/src/models/node.rs:58-64).  The f32 logarithm
`((size + 1) as f32).log10() / 4.0` is transcendental and is abstracted as the
`baseMass` parameter; theorems quantify over all its rational values. -/
def Node.set_file_size (n : Node) (size : ℕ) (baseMass : ℚ) : Node :=
  { n with
      file_size := size
      data := { n.data with mass := setFileSizeMass baseMass } }

/-- `Edge` (usage in src/src/services/graph_service.rs; struct itself is
outside src/): endpoints by string node id plus a weight.  The f32 weight is
always a sum of usize reference counts, modelled exactly as a Nat. -/
structure Edge where
  source : String
  target : String
  weight : ℕ
deriving DecidableEq, Repr

/-- `Edge::new(source, target, weight)`. -/
def Edge.new (source target : String) (weight : ℕ) : Edge :=
  ⟨source, target, weight⟩

/-- `Metadata` (usage in src/src/services/file_service.rs and
graph_service.rs; src/src/models/metadata.rs is not under src/).  Modelled
from the spec: per-document file name, byte size, node size, hyperlink count,
content hash, last-modified timestamp, and the map from referenced document
name to reference count (`topic_counts`). -/
structure Metadata where
  file_name : String
  file_size : ℕ
  node_size : ℚ
  hyperlink_count : ℕ
  sha1 : String
  last_modified : ℕ
  topic_counts : List (String × ℕ)
deriving DecidableEq, Repr

/-- `MetadataStore`: a map from document file name to its metadata entry,
embedded as an association list; HashMap iteration-order nondeterminism is
captured by quantifying over permutations of this list. -/
abbrev MetadataStore := List (String × Metadata)

/-- `GraphData` (usage in src/src/services/graph_service.rs; the struct
itself is outside src/).  Modelled from the spec: ordered node sequence, edge
collection, and the metadata mapping. -/
structure GraphData where
  nodes : List Node
  edges : List Edge
  metadata : MetadataStore
deriving DecidableEq, Repr

/-- Association-list lookup, modelling `HashMap::get`. -/
def alookup {α β : Type} [DecidableEq α] : List (α × β) → α → Option β
  | [], _ => none
  | (k, v) :: rest, key => if k = key then some v else alookup rest key

/-- Association-list insert-or-replace, modelling `HashMap::insert`. -/
def ainsert {α β : Type} [DecidableEq α] : List (α × β) → α → β → List (α × β)
  | [], key, v => [(key, v)]
  | (k, w) :: rest, key, v =>
      if k = key then (k, v) :: rest else (k, w) :: ainsert rest key v

/-- In-place update of an existing entry, modelling `HashMap::get_mut`
followed by field mutation; a missing key leaves the map unchanged. -/
def aupdate {α β : Type} [DecidableEq α] : List (α × β) → α → (β → β) → List (α × β)
  | [], _, _ => []
  | (k, w) :: rest, key, f =>
      if k = key then (k, f w) :: rest else (k, w) :: aupdate rest key f

/-- Repeatedly strip a trailing ".md" from a reversed character list
(the suffix ".md" reversed is ['d', 'm', '.']). -/
def stripMdRev : List Char → List Char
  | 'd' :: 'm' :: '.' :: rest => stripMdRev rest
  | l => l

/-- Rust's `trim_end_matches(".md")`: remove every trailing repetition of
".md" (src/src/services/graph_service.rs:91,121,124). -/
def trimEndMd (s : String) : String :=
  ⟨(stripMdRev s.data.reverse).reverse⟩

/-- The `valid_nodes` set of `build_graph_from_metadata`
(src/src/services/graph_service.rs:89-93): the set of node ids obtained by
stripping ".md" from every metadata key, here listed in first-occurrence
order (the HashSet's own iteration order is quantified separately). -/
def validNodesList (md : MetadataStore) : List String :=
  (md.map fun e => trimEndMd e.1).dedup

/-- The undirected edge key `(min(S,T), max(S,T))`
(src/src/services/graph_service.rs:128-132), using Rust's lexicographic
string order. -/
def edgeKey (s t : String) : String × String :=
  if s < t then (s, t) else (t, s)

/-- All weight contributions generated by the second pass of
`build_graph_from_metadata` (src/src/services/graph_service.rs:120-139), in
iteration order: for each metadata entry and each of its topic counts, a
contribution of that count to the undirected key, provided the endpoints
differ and the target resolves to an existing node. -/
def entryContribsTcs (valid : List String) (source_id : String)
    (tcs : List (String × ℕ)) : List ((String × String) × ℕ) :=
  tcs.filterMap fun tc =>
    if source_id ≠ trimEndMd tc.1 ∧ trimEndMd tc.1 ∈ valid then
      some (edgeKey source_id (trimEndMd tc.1), tc.2)
    else none

/-- The contributions of one metadata entry. -/
def entryContribs (valid : List String) (e : String × Metadata) :
    List ((String × String) × ℕ) :=
  entryContribsTcs valid (trimEndMd e.1) e.2.topic_counts

def edgeContribsAux (valid : List String) (entries : List (String × Metadata)) :
    List ((String × String) × ℕ) :=
  entries.flatMap (entryContribs valid)

/-- The edge contributions of a metadata store. -/
def edgeContribs (md : MetadataStore) : List ((String × String) × ℕ) :=
  edgeContribsAux (validNodesList md) md

/-- `edge_map.entry(key).and_modify(|w| *w += c).or_insert(c)`
(src/src/services/graph_service.rs:134-137). -/
def addContrib : List ((String × String) × ℕ) → String × String → ℕ →
    List ((String × String) × ℕ)
  | [], key, c => [(key, c)]
  | (k, w) :: rest, key, c =>
      if k = key then (k, w + c) :: rest else (k, w) :: addContrib rest key c

/-- The final edge map of a build: fold every contribution into the
accumulating map. -/
def edgeMap (md : MetadataStore) : List ((String × String) × ℕ) :=
  (edgeContribs md).foldl (fun m kc => addContrib m kc.1 kc.2) []

/-- Node construction of the first pass of `build_graph_from_metadata`
(src/src/services/graph_service.rs:96-114): a fresh node; when the metadata
entry for `node_id ++ ".md"` exists, set file size (and hence mass), size,
label, and the three metadata fields. -/
def buildNode (md : MetadataStore) (baseMassOf : ℕ → ℚ) (node_id : String) : Node :=
  let node := Node.new node_id
  match alookup md (node_id ++ ".md") with
  | some m =>
      let node := node.set_file_size m.file_size (baseMassOf m.file_size)
      let node := { node with size := some m.node_size, label := node_id }
      let meta := ainsert node.metadata "fileSize" (toString m.file_size)
      let meta := ainsert meta "hyperlinkCount" (toString m.hyperlink_count)
      let meta := ainsert meta "lastModified" (toString m.last_modified)
      { node with metadata := meta }
  | none => node

/-- Position seeding of `GraphService::initialize_random_positions`
(src/src/services/graph_service.rs:231-257) applied to the node at index
`i`: the position is overwritten with the Fibonacci-sphere point for `i`
(jittered by the thread rng), and the velocity is set to zero.  The f32
trigonometry and the rng jitter are abstracted as the per-index `seedPos`
function; the zero velocity is written exactly as in the source. -/
def seedNodes (seedPos : ℕ → Vec3Data) : ℕ → List Node → List Node
  | _, [] => []
  | i, n :: rest =>
      { n with data := { n.data with position := seedPos i, velocity := Vec3Data.zero } }
        :: seedNodes seedPos (i + 1) rest

/-- `GraphService::initialize_random_positions` on a whole graph. -/
def seedInitialPositions (seedPos : ℕ → Vec3Data) (g : GraphData) : GraphData :=
  { g with nodes := seedNodes seedPos 0 g.nodes }

/-- `GraphService::build_graph_from_metadata`
(src/src/services/graph_service.rs:83-153).  `nodeOrder` is the iteration
order of the `valid_nodes` HashSet (quantified over permutations of
`validNodesList md` in the theorems), `baseMassOf` abstracts the f32 base
mass per file size, and `seedPos` abstracts the jittered Fibonacci-sphere
point per node index. -/
def build_graph_from_metadata (nodeOrder : List String) (baseMassOf : ℕ → ℚ)
    (seedPos : ℕ → Vec3Data) (md : MetadataStore) : GraphData :=
  let nodes := nodeOrder.map (buildNode md baseMassOf)
  let graph : GraphData :=
    { nodes := nodes
      edges := (edgeMap md).map fun kw => Edge.new kw.1.1 kw.1.2 kw.2
      metadata := md }
  seedInitialPositions seedPos graph

/-- Squared Euclidean distance `dx*dx + dy*dy + dz*dz`
(src/src/handlers/socket_flow_handler.rs:120-123, 133-137). -/
def distSq (a b : Vec3Data) : ℚ :=
  (a.x - b.x) * (a.x - b.x) + (a.y - b.y) * (a.y - b.y) + (a.z - b.z) * (a.z - b.z)

/-- The state of one `SocketFlowServer` connection together with the shared
graph state it mutates (src/src/handlers/socket_flow_handler.rs:28-48 plus
the node map and graph of `GraphService`).  Wall-clock fields
(`last_activity`, `last_transfer_time`) are outside the embedding. -/
structure ConnState where
  nodeMap : List (String × Node)
  graphNodes : List Node
  lastPing : Option ℕ
  updateCounter : ℕ
  timerStarted : Bool
  lastSentPositions : List (String × Vec3Data)
  lastSentVelocities : List (String × Vec3Data)
  positionDeadband : ℚ
  velocityDeadband : ℚ
  lastTransferSize : ℕ
  totalBytesSent : ℕ
  updateCount : ℕ
  nodesSentCount : ℕ
deriving DecidableEq, Repr

/-- Outbound messages produced by the handler, abstracting the JSON values
built with serde_json: `pong`, `updatesStarted`, the error text frame
`\x7b"type":"error","message":…\x7d`, and a binary frame. -/
inductive OutMsg where
  | pongMsg (timestamp : ℕ)
  | updatesStartedMsg
  | errorMsg (message : String)
  | binaryFrame (payload : List ℕ)
deriving DecidableEq, Repr

/-- `SocketFlowServer::has_node_changed_significantly`
(src/src/handlers/socket_flow_handler.rs:117-154): the deadband filter.
Returns the decision together with the updated session state: when either
test passes (or a map has no prior entry for the node), both last-sent maps
are updated; otherwise the state is unchanged. -/
def has_node_changed_significantly (st : ConnState) (node_id : String)
    (new_position new_velocity : Vec3Data) : Bool × ConnState :=
  let position_changed : Bool :=
    match alookup st.lastSentPositions node_id with
    | some last_position =>
        decide (distSq new_position last_position >
          st.positionDeadband * st.positionDeadband)
    | none => true
  let velocity_changed : Bool :=
    match alookup st.lastSentVelocities node_id with
    | some last_velocity =>
        decide (distSq new_velocity last_velocity >
          st.velocityDeadband * st.velocityDeadband)
    | none => true
  if position_changed || velocity_changed then
    (true,
      { st with
          lastSentPositions := ainsert st.lastSentPositions node_id new_position
          lastSentVelocities := ainsert st.lastSentVelocities node_id new_velocity })
  else
    (false, st)

/-- One decoded inbound record applied to the node map
(src/src/handlers/socket_flow_handler.rs:503-531): position and velocity are
overwritten; mass and flags are saved into locals first and explicitly
restored afterwards; unknown ids leave the map unchanged. -/
def applyNodeUpdate (nodeMap : List (String × Node)) (upd : ℕ × BinaryNodeData) :
    List (String × Node) :=
  let node_id_str := toString upd.1
  aupdate nodeMap node_id_str fun node =>
    let original_mass := node.data.mass
    let original_flags := node.data.flags
    { node with
        data :=
          { node.data with
              position := upd.2.position
              velocity := upd.2.velocity
              mass := original_mass
              flags := original_flags } }

/-- Propagation of the updated node map into the graph's node sequence
(src/src/handlers/socket_flow_handler.rs:536-547): for each graph node whose
id is in the map, copy position and velocity, explicitly preserving the
graph node's own mass and flags. -/
def syncGraphNodes (nodeMap : List (String × Node)) (nodes : List Node) : List Node :=
  nodes.map fun node =>
    match alookup nodeMap node.id with
    | some updated_node =>
        let original_mass := node.data.mass
        let original_flags := node.data.flags
        { node with
            data :=
              { node.data with
                  position := updated_node.data.position
                  velocity := updated_node.data.velocity
                  mass := original_mass
                  flags := original_flags } }
    | none => node

/-- Modelled from the spec: `binary_protocol::decode_node_data`
(src/src/utils/binary_protocol.rs is not under src/).  Spec section 4.2: the
frame length must be an exact multiple of 26, any other length is a decode
error, and decoding yields one (numeric id, position, velocity) record per
26-byte chunk.  The f32 bit-level interpretation of a chunk is abstracted as
the `parse` parameter. -/
def chunksFuel : ℕ → List ℕ → List (List ℕ)
  | _, [] => []
  | 0, _ => []
  | fuel + 1, b :: bs => ((b :: bs).take 26) :: chunksFuel fuel ((b :: bs).drop 26)

/-- The 26-byte chunks of a frame (the fuel argument is only a structural
termination device; `l.length` steps always suffice since every step
consumes at least one byte). -/
def chunks26 (l : List ℕ) : List (List ℕ) := chunksFuel l.length l

/-- Modelled from the spec: the decode half of the binary wire codec, see
`chunks26`. -/
def decode_node_data (parse : List ℕ → ℕ × BinaryNodeData) (bytes : List ℕ) :
    Except String (List (ℕ × BinaryNodeData)) :=
  if bytes.length % 26 = 0 then
    .ok ((chunks26 bytes).map parse)
  else
    .error "invalid data length"

/-- The inbound binary branch of `StreamHandler::handle`
(src/src/handlers/socket_flow_handler.rs:480-574): on a successful decode of
at most two records, apply the updates to the node map under the write guard
and propagate them into the graph's node sequence; on more than two records
or a decode error, reply with an error text frame and change nothing. -/
def handleBinaryMessage (result : Except String (List (ℕ × BinaryNodeData)))
    (st : ConnState) : ConnState × List OutMsg :=
  match result with
  | .ok nodes =>
      if nodes.length ≤ 2 then
        let nm := nodes.foldl applyNodeUpdate st.nodeMap
        ({ st with nodeMap := nm, graphNodes := syncGraphNodes nm st.graphNodes }, [])
      else
        (st, [.errorMsg ("Too many nodes in update: " ++ toString nodes.length)])
  | .error e =>
      (st, [.errorMsg ("Failed to decode binary message: " ++ e)])

/-- An inbound text frame after serde parsing
(src/src/handlers/socket_flow_handler.rs:229-478): either the JSON parse
failed, or it yielded a value whose optional string `type`, `timestamp` and
`enabled` fields are extracted. -/
inductive InboundText where
  | malformed (err : String)
  | parsed (ty : Option String) (timestamp : ℕ) (enabled : Option Bool)
deriving DecidableEq, Repr

/-- The inbound text branch of `StreamHandler::handle`
(src/src/handlers/socket_flow_handler.rs:229-478): `ping` records the
timestamp and replies `pong`; `requestInitialData` starts the update timer
and replies `updatesStarted`; `enableRandomization` is acknowledged with
logs only; any other type is logged with `warn!` and produces no reply; a
JSON parse failure produces the error text frame. -/
def handleTextMessage (msg : InboundText) (st : ConnState) : ConnState × List OutMsg :=
  match msg with
  | .malformed e => (st, [.errorMsg ("Failed to parse text message: " ++ e)])
  | .parsed ty ts _enabled =>
      match ty with
      | some "ping" => ({ st with lastPing := some ts }, [.pongMsg ts])
      | some "requestInitialData" => ({ st with timerStarted := true }, [.updatesStartedMsg])
      | some "enableRandomization" => (st, [])
      | _ => (st, [])

/-- `PaginatedGraphData` (usage in src/src/services/graph_service.rs:324-332;
src/src/models/pagination.rs is not under src/). -/
structure PaginatedGraphData where
  nodes : List Node
  edges : List Edge
  total_nodes : ℕ
  total_edges : ℕ
  total_pages : ℕ
  current_page : ℕ
deriving DecidableEq, Repr

/-- `GraphService::get_paginated_graph_data`
(src/src/services/graph_service.rs:291-333).  The usize subtraction
`end - start` is an arithmetic overflow when `end < start` (a panic under
Rust's checked subtraction semantics), embedded as the error branch.  The
f32 ceiling for `total_pages` is modelled as the Nat ceiling division. -/
def get_paginated_graph_data (g : GraphData) (page page_size : ℕ) :
    Except String PaginatedGraphData :=
  let total_nodes := g.nodes.length
  let start := page * page_size
  let endIdx := min ((page + 1) * page_size) total_nodes
  if endIdx < start then
    .error "attempt to subtract with overflow"
  else
    let page_nodes := (g.nodes.drop start).take (endIdx - start)
    let node_ids := page_nodes.map Node.id
    let edges := g.edges.filter fun e => e.source ∈ node_ids ∨ e.target ∈ node_ids
    .ok
      { nodes := page_nodes
        edges := edges
        total_nodes := total_nodes
        total_edges := g.edges.length
        total_pages := (total_nodes + page_size - 1) / page_size
        current_page := page }

/-- The graph-replacement step of `update_graph_periodically`
(src/src/main.rs:103-122): remember the old (id, position) pairs, rebuild
from metadata, then restore x, y and z for every new node whose id was
present before; the new graph (and in particular the zero velocity written
by the position initializer) is kept for everything else. -/
def updateGraphRebuild (oldGraph newGraph : GraphData) : GraphData :=
  let old_positions := oldGraph.nodes.map fun n => (n.id, n.data.position)
  { newGraph with
      nodes := newGraph.nodes.map fun node =>
        match alookup old_positions node.id with
        | some p => { node with data := { node.data with position := p } }
        | none => node }

/-- Rust `str::lines().next().unwrap_or("")` on a character list: the prefix
before the first newline, with one trailing carriage return removed
(src/src/services/file_service.rs:515,702). -/
def firstLineChars (content : List Char) : List Char :=
  let l := content.takeWhile (· ≠ '\n')
  match l.reverse with
  | '\r' :: rest => rest.reverse
  | _ => l

/-- The first line of a document as a string. -/
def firstLineOf (content : String) : String :=
  ⟨firstLineChars content.data⟩

/-- Rust `str::trim` on a character list: drop leading and trailing
whitespace.  (Rust trims by Unicode White_Space; the embedding uses Lean's
`Char.isWhitespace`, which agrees on the ASCII whitespace relevant here.) -/
def trimChars (l : List Char) : List Char :=
  ((l.dropWhile Char.isWhitespace).reverse.dropWhile Char.isWhitespace).reverse

/-- `str::trim` on a string. -/
def trimString (s : String) : String :=
  ⟨trimChars s.data⟩

/-- The admission check applied to every fetched document in both
`FileService::initialize_local_storage`
(src/src/services/file_service.rs:515-519) and
`FileService::fetch_and_process_files`
(src/src/services/file_service.rs:702-706): the first line, trimmed, must
equal "public:: true"; otherwise the file is skipped (neither written to
local storage nor inserted into the metadata store). -/
def fileAdmissionCheck (content : String) : Bool :=
  trimString (firstLineOf content) = "public:: true"

/-- The names of the fetched documents admitted by one pass of the
ingestion loop: exactly those whose content passes `fileAdmissionCheck`. -/
def admittedFiles (files : List (String × String)) : List String :=
  files.filterMap fun f => if fileAdmissionCheck f.2 then some f.1 else none

/-- A concrete connection state for concrete evaluations: empty maps, the
default deadbands (POSITION_DEADBAND = 0.005, VELOCITY_DEADBAND = 0.001,
src/src/handlers/socket_flow_handler.rs:22-23), zero counters. -/
def connState0 : ConnState :=
  { nodeMap := []
    graphNodes := []
    lastPing := none
    updateCounter := 0
    timerStarted := false
    lastSentPositions := []
    lastSentVelocities := []
    positionDeadband := 1/200
    velocityDeadband := 1/1000
    lastTransferSize := 0
    totalBytesSent := 0
    updateCount := 0
    nodesSentCount := 0 }

/-- C10: for every file-size input (hence for every value of the f32 base
mass, quantified here as an arbitrary rational), `Node::set_file_size`
leaves the node's 8-bit mass in the range [1, 255]; in particular a node's
mass is never zero after building it from metadata. -/
theorem set_file_size_mass_range (n : Node) (size : ℕ) (b : ℚ) :
    1 ≤ (n.set_file_size size b).data.mass ∧ (n.set_file_size size b).data.mass ≤ 255 := by
  have h : rustF32ToU8 (min (max b (1/10)) 10 * (51/2)) ≤ 255 := by
    unfold rustF32ToU8
    split <;> omega
  constructor
  · simp only [Node.set_file_size, setFileSizeMass]
    omega
  · simp only [Node.set_file_size, setFileSizeMass]
    omega

/-- C9: whenever `page * page_size` strictly exceeds the number of nodes,
`end = min((page+1)*page_size, total)` is strictly smaller than
`start = page * page_size`, so the usize subtraction `end - start` underflows
and `get_paginated_graph_data` hits its error branch instead of returning an
empty page. -/
theorem pagination_underflow (g : GraphData) (page page_size : ℕ)
    (h : g.nodes.length < page * page_size) :
    min ((page + 1) * page_size) g.nodes.length < page * page_size ∧
    get_paginated_graph_data g page page_size =
      .error "attempt to subtract with overflow" := by
  have hlt : min ((page + 1) * page_size) g.nodes.length < page * page_size := by
    have := min_le_right ((page + 1) * page_size) g.nodes.length
    omega
  refine ⟨hlt, ?_⟩
  simp only [get_paginated_graph_data]
  rw [if_pos hlt]

/-- An empty graph, for concrete evaluation. -/
def emptyGraph : GraphData := ⟨[], [], []⟩

/-- Witness for `pagination_underflow`: page 1 of size 5 over an empty
graph underflows. -/
theorem pagination_underflow_witness :
    emptyGraph.nodes.length < 1 * 5 ∧
    get_paginated_graph_data emptyGraph 1 5 =
      .error "attempt to subtract with overflow" :=
  ⟨by decide, (pagination_underflow emptyGraph 1 5 (by decide)).2⟩

/-- C7 counterexample: an inbound text message of the unknown type "foo"
produces NO reply at all — in particular no error text frame — and leaves
the session state unchanged.  The claim that every unknown-type message is
answered with an error frame is false on the code: the `_` arm of the type
match (src/src/handlers/socket_flow_handler.rs:463-465) only logs a warning. -/
theorem unknown_text_type_counterexample :
    handleTextMessage (.parsed (some "foo") 0 none) connState0 = (connState0, []) ∧
    (handleTextMessage (.parsed (some "foo") 0 none) connState0).2 ≠
      [.errorMsg "Unknown message type"] := by
  exact ⟨rfl, by decide⟩

/-- C7 amended: an inbound text message whose type is none of ping,
requestInitialData, enableRandomization is dropped with no reply of any
kind and no state change; only a text frame that fails JSON parsing is
answered with the error text frame. -/
theorem unknown_text_type_ignored (st : ConnState) (ty : Option String) (ts : ℕ)
    (en : Option Bool) (h1 : ty ≠ some "ping") (h2 : ty ≠ some "requestInitialData")
    (h3 : ty ≠ some "enableRandomization") :
    handleTextMessage (.parsed ty ts en) st = (st, []) ∧
    ∀ e : String, handleTextMessage (.malformed e) st =
      (st, [.errorMsg ("Failed to parse text message: " ++ e)]) := by
  refine ⟨?_, fun e => rfl⟩
  cases ty with
  | none => rfl
  | some s =>
      unfold handleTextMessage
      dsimp only
      split
      · simp_all
      · simp_all
      · simp_all
      · rfl

/-- Witness for `unknown_text_type_ignored` at type "foo". -/
theorem unknown_text_type_ignored_witness :
    (some "foo" ≠ some "ping") ∧
    handleTextMessage (.parsed (some "foo") 1 none) connState0 = (connState0, []) :=
  ⟨by decide,
    (unknown_text_type_ignored connState0 (some "foo") 1 none (by decide) (by decide)
      (by decide)).1⟩

/-- A document whose first line carries a leading space before the marker. -/
def paddedPublicDoc : String := " public:: true\nbody"

/-- C8 counterexample: the code admits a fetched document whose first line is
" public:: true" (leading space), although that first line is not the
literal string "public:: true" — the source compares the *trimmed* first
line (src/src/services/file_service.rs:515-519 and 702-706), so admission is
not equivalent to the first line being the literal. -/
theorem admission_trim_counterexample :
    fileAdmissionCheck paddedPublicDoc = true ∧
    firstLineOf paddedPublicDoc ≠ "public:: true" := by
  constructor
  · decide
  · decide

/-- C8 amended: a fetched document is admitted to ingestion (written to
local storage and processed into the metadata store) if and only if its
first line, after trimming surrounding whitespace, equals "public:: true";
a document whose first line is exactly the literal is in particular
admitted, and one ingestion pass admits exactly the files passing this
check. -/
theorem admission_condition (content : String) (files : List (String × String))
    (hlit : firstLineOf content = "public:: true") :
    fileAdmissionCheck content = true ∧
    (∀ c : String, fileAdmissionCheck c = true ↔
      trimString (firstLineOf c) = "public:: true") ∧
    admittedFiles files = (files.filter fun f => fileAdmissionCheck f.2).map Prod.fst := by
  refine ⟨?_, ?_, ?_⟩
  · rw [fileAdmissionCheck, hlit]
    decide
  · intro c
    simp [fileAdmissionCheck]
  · induction files with
    | nil => rfl
    | cons f fs ih =>
        simp only [admittedFiles, List.filterMap_cons, List.filter_cons] at *
        by_cases hf : fileAdmissionCheck f.2 = true
        · simp [hf, ih]
        · simp only [Bool.not_eq_true] at hf
          simp [hf, ih]

/-- Witness for `admission_condition`: a document whose first line is the
exact literal is admitted. -/
theorem admission_condition_witness :
    firstLineOf "public:: true\nrest" = "public:: true" ∧
    fileAdmissionCheck "public:: true\nrest" = true :=
  ⟨by decide, (admission_condition "public:: true\nrest" [] (by decide)).1⟩

/-- C4: an inbound binary frame that decodes to more than two node records
is answered with the error text frame and applies no mutation at all: the
node map, the graph's node sequence, the session's last-sent maps and the
transfer counters (the whole connection state) are returned unchanged. -/
theorem oversize_inbound_frame_rejected (parse : List ℕ → ℕ × BinaryNodeData)
    (bytes : List ℕ) (st : ConnState) (records : List (ℕ × BinaryNodeData))
    (hdec : decode_node_data parse bytes = .ok records) (hlen : 2 < records.length) :
    handleBinaryMessage (decode_node_data parse bytes) st =
      (st, [.errorMsg ("Too many nodes in update: " ++ toString records.length)]) := by
  rw [hdec]
  unfold handleBinaryMessage
  dsimp only
  rw [if_neg (by omega)]

/-- A record parser for concrete evaluation (the f32 interpretation of a
chunk is irrelevant to the oversize check). -/
def parse0 : List ℕ → ℕ × BinaryNodeData :=
  fun _ => (0, ⟨Vec3Data.zero, Vec3Data.zero, 0, 0, (0, 0)⟩)

/-- A 78-byte frame: three records. -/
def bytes78 : List ℕ := List.replicate 78 0

/-- Witness for `oversize_inbound_frame_rejected`: a 78-byte frame decodes
to three records and is rejected without touching state. -/
theorem oversize_inbound_frame_rejected_witness :
    (decode_node_data parse0 bytes78 = .ok ((chunks26 bytes78).map parse0) ∧
      2 < ((chunks26 bytes78).map parse0).length) ∧
    handleBinaryMessage (decode_node_data parse0 bytes78) connState0 =
      (connState0, [.errorMsg ("Too many nodes in update: " ++
        toString ((chunks26 bytes78).map parse0).length)]) :=
  ⟨⟨rfl, by decide⟩,
    oversize_inbound_frame_rejected parse0 bytes78 connState0 _ rfl (by decide)⟩

/-- The (key, mass, flags) projection of the node map. -/
def massFlagsOfMap (m : List (String × Node)) : List (String × ℕ × ℕ) :=
  m.map fun p => (p.1, p.2.data.mass, p.2.data.flags)

/-- The (id, mass, flags) projection of a node sequence. -/
def massFlagsOfNodes (l : List Node) : List (String × ℕ × ℕ) :=
  l.map fun n => (n.id, n.data.mass, n.data.flags)

lemma massFlagsOfMap_aupdate (m : List (String × Node)) (key : String)
    (f : Node → Node)
    (hf : ∀ n, (f n).data.mass = n.data.mass ∧ (f n).data.flags = n.data.flags) :
    massFlagsOfMap (aupdate m key f) = massFlagsOfMap m := by
  induction m with
  | nil => rfl
  | cons p rest ih =>
      simp only [aupdate]
      split
      · simp [massFlagsOfMap, (hf p.2).1, (hf p.2).2]
      · simp only [massFlagsOfMap, List.map_cons] at *
        rw [ih]

lemma massFlagsOfMap_applyNodeUpdate (m : List (String × Node))
    (upd : ℕ × BinaryNodeData) :
    massFlagsOfMap (applyNodeUpdate m upd) = massFlagsOfMap m := by
  unfold applyNodeUpdate
  exact massFlagsOfMap_aupdate m _ _ fun n => ⟨rfl, rfl⟩

lemma massFlagsOfMap_foldl (upds : List (ℕ × BinaryNodeData))
    (m : List (String × Node)) :
    massFlagsOfMap (upds.foldl applyNodeUpdate m) = massFlagsOfMap m := by
  induction upds generalizing m with
  | nil => rfl
  | cons u rest ih =>
      simp only [List.foldl_cons]
      rw [ih, massFlagsOfMap_applyNodeUpdate]

lemma massFlagsOfNodes_syncGraphNodes (nm : List (String × Node)) (l : List Node) :
    massFlagsOfNodes (syncGraphNodes nm l) = massFlagsOfNodes l := by
  unfold massFlagsOfNodes syncGraphNodes
  rw [List.map_map]
  apply List.map_congr_left
  intro n _
  simp only [Function.comp_apply]
  split <;> rfl

lemma handleBinaryMessage_preserves_massFlags
    (f : Except String (List (ℕ × BinaryNodeData))) (st : ConnState) :
    massFlagsOfMap (handleBinaryMessage f st).1.nodeMap = massFlagsOfMap st.nodeMap ∧
    massFlagsOfNodes (handleBinaryMessage f st).1.graphNodes =
      massFlagsOfNodes st.graphNodes := by
  cases f with
  | error e => exact ⟨rfl, rfl⟩
  | ok nodes =>
      unfold handleBinaryMessage
      dsimp only
      by_cases h : nodes.length ≤ 2
      · rw [if_pos h]
        exact ⟨massFlagsOfMap_foldl nodes st.nodeMap,
          massFlagsOfNodes_syncGraphNodes _ st.graphNodes⟩
      · rw [if_neg h]
        exact ⟨rfl, rfl⟩

/-- C1: after any sequence of inbound binary frames (well-formed, oversize
or malformed alike), every node's mass and flags — both in the node map and
in the graph's node sequence — are exactly what they were immediately after
graph build: the inbound binary handler overwrites only position and
velocity. -/
theorem inbound_updates_preserve_mass_flags
    (frames : List (Except String (List (ℕ × BinaryNodeData)))) (st : ConnState) :
    massFlagsOfMap
        ((frames.foldl (fun s f => (handleBinaryMessage f s).1) st).nodeMap) =
      massFlagsOfMap st.nodeMap ∧
    massFlagsOfNodes
        ((frames.foldl (fun s f => (handleBinaryMessage f s).1) st).graphNodes) =
      massFlagsOfNodes st.graphNodes := by
  induction frames generalizing st with
  | nil => exact ⟨rfl, rfl⟩
  | cons f rest ih =>
      simp only [List.foldl_cons]
      have h1 := handleBinaryMessage_preserves_massFlags f st
      have h2 := ih (handleBinaryMessage f st).1
      exact ⟨h2.1.trans h1.1, h2.2.trans h1.2⟩

/-- C3: the deadband filter qualifies a node if and only if the squared
position change strictly exceeds the squared position deadband, or the
squared velocity change strictly exceeds the squared velocity deadband, or
the session has no prior last-sent value for the node (for nonnegative
deadbands the squared comparisons coincide with comparing the Euclidean
magnitudes themselves; the source compares squares, spec section 4.6).  When
the node qualifies, both last-sent maps are updated in lockstep to the new
values; otherwise the state is unchanged; and a change exactly equal to the
threshold does not qualify.  The hypothesis records the session invariant
that the two last-sent maps always hold the same node keys (they are only
ever inserted into together). -/
theorem deadband_filter_spec (st : ConnState) (node_id : String)
    (pos vel : Vec3Data)
    (hdom : (alookup st.lastSentPositions node_id).isSome =
      (alookup st.lastSentVelocities node_id).isSome) :
    ((has_node_changed_significantly st node_id pos vel).1 = true ↔
      alookup st.lastSentPositions node_id = none ∨
      (∃ lp, alookup st.lastSentPositions node_id = some lp ∧
        distSq pos lp > st.positionDeadband * st.positionDeadband) ∨
      (∃ lv, alookup st.lastSentVelocities node_id = some lv ∧
        distSq vel lv > st.velocityDeadband * st.velocityDeadband)) ∧
    ((has_node_changed_significantly st node_id pos vel).1 = true →
      (has_node_changed_significantly st node_id pos vel).2 =
        { st with
            lastSentPositions := ainsert st.lastSentPositions node_id pos
            lastSentVelocities := ainsert st.lastSentVelocities node_id vel }) ∧
    ((has_node_changed_significantly st node_id pos vel).1 = false →
      (has_node_changed_significantly st node_id pos vel).2 = st) ∧
    (∀ lp lv, alookup st.lastSentPositions node_id = some lp →
      alookup st.lastSentVelocities node_id = some lv →
      distSq pos lp = st.positionDeadband * st.positionDeadband →
      distSq vel lv = st.velocityDeadband * st.velocityDeadband →
      (has_node_changed_significantly st node_id pos vel).1 = false) := by
  rcases hp : alookup st.lastSentPositions node_id with _ | lp
  · rcases hv : alookup st.lastSentVelocities node_id with _ | lv
    · refine ⟨by simp [has_node_changed_significantly, hp, hv],
        by simp [has_node_changed_significantly, hp, hv],
        by simp [has_node_changed_significantly, hp, hv], ?_⟩
      intro lp lv h1 _ _ _
      exact absurd h1 (by simp)
    · rw [hp, hv] at hdom
      simp at hdom
  · rcases hv : alookup st.lastSentVelocities node_id with _ | lv
    · rw [hp, hv] at hdom
      simp at hdom
    · by_cases h1 : distSq pos lp > st.positionDeadband * st.positionDeadband
      · refine ⟨by simp [has_node_changed_significantly, hp, hv, h1],
          by simp [has_node_changed_significantly, hp, hv, h1],
          by simp [has_node_changed_significantly, hp, hv, h1], ?_⟩
        intro lp' lv' e1 e2 e3 e4
        injection e1 with e1
        subst e1
        exact absurd h1 (by rw [e3]; exact lt_irrefl _)
      · by_cases h2 : distSq vel lv > st.velocityDeadband * st.velocityDeadband
        · refine ⟨by simp [has_node_changed_significantly, hp, hv, h1, h2],
            by simp [has_node_changed_significantly, hp, hv, h1, h2],
            by simp [has_node_changed_significantly, hp, hv, h1, h2], ?_⟩
          intro lp' lv' e1 e2 e3 e4
          injection e2 with e2
          subst e2
          exact absurd h2 (by rw [e4]; exact lt_irrefl _)
        · exact ⟨by simp [has_node_changed_significantly, hp, hv, h1, h2],
            by simp [has_node_changed_significantly, hp, hv, h1, h2],
            by simp [has_node_changed_significantly, hp, hv, h1, h2],
            fun _ _ _ _ _ _ => by simp [has_node_changed_significantly, hp, hv, h1, h2]⟩

/-- A session state that has already sent node 7 at position (1, 0, 0)
with zero velocity. -/
def sentState7 : ConnState :=
  { connState0 with
      lastSentPositions := [("7", ⟨1, 0, 0⟩)]
      lastSentVelocities := [("7", Vec3Data.zero)] }

/-- Witness for `deadband_filter_spec`: moving node 7 from (1,0,0) to
(1.010, 0, 0) with deadband 0.005 qualifies, and both last-sent maps are
updated to the encoded values. -/
theorem deadband_filter_spec_witness :
    ((alookup sentState7.lastSentPositions "7").isSome =
      (alookup sentState7.lastSentVelocities "7").isSome) ∧
    (has_node_changed_significantly sentState7 "7" ⟨101/100, 0, 0⟩ Vec3Data.zero).2 =
      { sentState7 with
          lastSentPositions := ainsert sentState7.lastSentPositions "7" ⟨101/100, 0, 0⟩
          lastSentVelocities := ainsert sentState7.lastSentVelocities "7" Vec3Data.zero } :=
  ⟨by decide,
    (deadband_filter_spec sentState7 "7" ⟨101/100, 0, 0⟩ Vec3Data.zero
      (by decide)).2.1 (by with_unfolding_all decide)⟩

lemma seedNodes_mem (seed : ℕ → Vec3Data) (i : ℕ) (l : List Node) :
    ∀ n ∈ seedNodes seed i l,
      n.data.velocity = Vec3Data.zero ∧ ∃ j, n.data.position = seed j := by
  induction l generalizing i with
  | nil => intro n hn; cases hn
  | cons m rest ih =>
      intro n hn
      rcases List.mem_cons.1 hn with hn | hn
      · subst hn
        exact ⟨rfl, i, rfl⟩
      · exact ih (i + 1) n hn

/-- C5 amended: after a periodic rebuild, every node of the new graph has
zero velocity (the rebuild initializer resets velocities, so a surviving
node's velocity is NOT preserved); the position of a node whose id was
present in the old graph is restored to its old value; and a node whose id
is new carries a freshly seeded (Fibonacci-sphere) position. -/
theorem rebuild_preserves_surviving_positions (old : GraphData)
    (order : List String) (base : ℕ → ℚ) (seed : ℕ → Vec3Data)
    (md : MetadataStore) (n : Node)
    (hn : n ∈ (updateGraphRebuild old (build_graph_from_metadata order base seed md)).nodes) :
    n.data.velocity = Vec3Data.zero ∧
    (∀ p, alookup (old.nodes.map fun m => (m.id, m.data.position)) n.id = some p →
      n.data.position = p) ∧
    (alookup (old.nodes.map fun m => (m.id, m.data.position)) n.id = none →
      ∃ j, n.data.position = seed j) := by
  simp only [updateGraphRebuild] at hn
  obtain ⟨n', hn', hpatch⟩ := List.mem_map.1 hn
  have hbuild : n' ∈ seedNodes seed 0 ((order.map (buildNode md base))) := by
    simpa [build_graph_from_metadata, seedInitialPositions] using hn'
  obtain ⟨hvel, j, hposj⟩ := seedNodes_mem seed 0 _ n' hbuild
  rcases hlook : alookup (old.nodes.map fun m => (m.id, m.data.position)) n'.id
    with _ | p
  · rw [hlook] at hpatch
    subst hpatch
    refine ⟨hvel, ?_, fun _ => ⟨j, hposj⟩⟩
    intro p hp
    rw [hlook] at hp
    cases hp
  · rw [hlook] at hpatch
    subst hpatch
    refine ⟨hvel, ?_, ?_⟩
    · intro p' hp'
      rw [hlook] at hp'
      cases hp'
      rfl
    · intro hnone
      rw [hlook] at hnone
      cases hnone

/-- A one-document metadata entry with no references. -/
def mdEntry (nm : String) : Metadata :=
  { file_name := nm
    file_size := 10
    node_size := 7
    hyperlink_count := 0
    sha1 := "h"
    last_modified := 0
    topic_counts := [] }

/-- A one-document metadata store. -/
def mdA : MetadataStore := [("a.md", mdEntry "a.md")]

/-- A fixed value of the abstracted f32 base-mass function. -/
def base0 : ℕ → ℚ := fun _ => 0

/-- A fixed value of the abstracted jittered Fibonacci-sphere seeding
(for a single node the sphere point is (r, 0, 0) with r in [0.45, 0.55)). -/
def seed0 : ℕ → Vec3Data := fun _ => ⟨9/20, 0, 0⟩

/-- The old graph before the rebuild: node "a" at position (7,0,0) moving
with velocity (1,0,0). -/
def oldA : GraphData :=
  { nodes :=
      [{ Node.new "a" with
          data := { (Node.new "a").data with
            position := ⟨7, 0, 0⟩, velocity := ⟨1, 0, 0⟩ } }]
    edges := []
    metadata := mdA }

/-- The result of a periodic rebuild of `oldA` from the same metadata. -/
def rebuiltA : GraphData :=
  updateGraphRebuild oldA (build_graph_from_metadata ["a"] base0 seed0 mdA)

/-- C5 counterexample: node "a" survives the rebuild (its document is still
in the metadata), its velocity before the rebuild is (1,0,0), but after the
rebuild its velocity is zero — `update_graph_periodically`
(src/src/main.rs:113-121) restores only x, y, z, while the rebuild's
position initializer zeroes every velocity, so velocities of surviving
nodes are not preserved. -/
theorem rebuild_velocity_counterexample :
    ["a"].Perm (validNodesList mdA) ∧
    (oldA.nodes.map fun n => (n.id, n.data.velocity)) = [("a", ⟨1, 0, 0⟩)] ∧
    (rebuiltA.nodes.map fun n => (n.id, n.data.velocity)) = [("a", Vec3Data.zero)] ∧
    (⟨1, 0, 0⟩ : Vec3Data) ≠ Vec3Data.zero := by
  with_unfolding_all decide

/-- The surviving node of the rebuilt graph. -/
def rebuiltNodeA : Node := rebuiltA.nodes.getD 0 (Node.new "x")

/-- Witness for `rebuild_preserves_surviving_positions`: the surviving node
"a" keeps its old position (7,0,0) across the rebuild. -/
theorem rebuild_preserves_surviving_positions_witness :
    (rebuiltNodeA ∈ rebuiltA.nodes ∧
      alookup (oldA.nodes.map fun m => (m.id, m.data.position)) rebuiltNodeA.id =
        some ⟨7, 0, 0⟩) ∧
    rebuiltNodeA.data.position = ⟨7, 0, 0⟩ :=
  ⟨⟨by with_unfolding_all decide, by with_unfolding_all decide⟩,
    (rebuild_preserves_surviving_positions oldA ["a"] base0 seed0 mdA rebuiltNodeA
      (by with_unfolding_all decide)).2.1 ⟨7, 0, 0⟩ (by with_unfolding_all decide)⟩

/-- The edge collection of a graph viewed as an association list from the
(source, target) endpoint pair to the weight. -/
def edgeMapOf (g : GraphData) : List ((String × String) × ℕ) :=
  g.edges.map fun e => ((e.source, e.target), e.weight)

/-- The weight the graph assigns to the unordered pair of s and t, when an
edge for it exists. -/
def edgeWeight (g : GraphData) (s t : String) : Option ℕ :=
  alookup (edgeMapOf g) (edgeKey s t)

/-- The directed reference count c_ST: the total count with which documents
trimming to s reference documents trimming to t in their topic counts. -/
def refCount (md : MetadataStore) (s t : String) : ℕ :=
  (md.map fun e =>
    if trimEndMd e.1 = s then
      (e.2.topic_counts.map fun tc => if trimEndMd tc.1 = t then tc.2 else 0).sum
    else 0).sum

/-- Whether some document trimming to s has a topic-counts entry for a
document trimming to t. -/
def referencesB (md : MetadataStore) (s t : String) : Bool :=
  md.any fun e =>
    decide (trimEndMd e.1 = s) &&
      e.2.topic_counts.any fun tc => decide (trimEndMd tc.1 = t)

/-- The weights contributed under a given key, in order. -/
def keyList (l : List ((String × String) × ℕ)) (k : String × String) : List ℕ :=
  (l.filter fun p => decide (p.1 = k)).map Prod.snd

lemma keyList_nil (k : String × String) : keyList [] k = [] := rfl

lemma keyList_cons (p : (String × String) × ℕ) (l : List ((String × String) × ℕ))
    (k : String × String) :
    keyList (p :: l) k = if p.1 = k then p.2 :: keyList l k else keyList l k := by
  simp only [keyList, List.filter_cons]
  by_cases h : p.1 = k
  · simp [h]
  · simp [h]

lemma keyList_append (l₁ l₂ : List ((String × String) × ℕ)) (k : String × String) :
    keyList (l₁ ++ l₂) k = keyList l₁ k ++ keyList l₂ k := by
  simp [keyList, List.filter_append]

lemma alookup_addContrib (m : List ((String × String) × ℕ))
    (key k : String × String) (c : ℕ) :
    alookup (addContrib m key c) k =
      if key = k then some ((alookup m k).getD 0 + c) else alookup m k := by
  induction m with
  | nil =>
      by_cases h : key = k
      · simp [addContrib, alookup, h]
      · simp [addContrib, alookup, h]
  | cons p rest ih =>
      obtain ⟨k', w⟩ := p
      simp only [addContrib]
      by_cases h1 : k' = key
      · subst h1
        by_cases h2 : k' = k
        · subst h2
          simp [alookup]
        · simp [alookup, h2]
      · rw [if_neg h1]
        by_cases h2 : k' = k
        · subst h2
          have hkk : ¬ key = k' := fun h => h1 h.symm
          simp [alookup, hkk]
        · simp [alookup, h2, ih]

lemma alookup_foldl_addContrib (l : List ((String × String) × ℕ))
    (acc : List ((String × String) × ℕ)) (k : String × String) :
    alookup (l.foldl (fun m kc => addContrib m kc.1 kc.2) acc) k =
      match alookup acc k with
      | some w => some (w + (keyList l k).sum)
      | none => if keyList l k = [] then none else some (keyList l k).sum := by
  induction l generalizing acc with
  | nil =>
      cases hacc : alookup acc k <;> simp [keyList, List.foldl_nil, hacc]
  | cons p rest ih =>
      simp only [List.foldl_cons]
      rw [ih, alookup_addContrib]
      by_cases hp : p.1 = k
      · rw [if_pos hp, keyList_cons, if_pos hp]
        cases hacc : alookup acc k with
        | some w => simp [List.sum_cons, Nat.add_assoc]
        | none => simp [List.sum_cons]
      · rw [if_neg hp, keyList_cons, if_neg hp]

lemma edgeKey_eq_iff {s t u v : String} (hst : s ≠ t) :
    edgeKey u v = edgeKey s t ↔ (u = s ∧ v = t) ∨ (u = t ∧ v = s) := by
  unfold edgeKey
  by_cases h1 : u < v
  · by_cases h2 : s < t
    · rw [if_pos h1, if_pos h2, Prod.mk.injEq]
      constructor
      · exact fun h => Or.inl h
      · rintro (⟨rfl, rfl⟩ | ⟨rfl, rfl⟩)
        · exact ⟨rfl, rfl⟩
        · exact absurd h1 (lt_asymm h2)
    · have h3 : t < s := lt_of_le_of_ne (not_lt.1 h2) (Ne.symm hst)
      rw [if_pos h1, if_neg h2, Prod.mk.injEq]
      constructor
      · exact fun h => Or.inr h
      · rintro (⟨rfl, rfl⟩ | ⟨rfl, rfl⟩)
        · exact absurd h1 (lt_asymm h3)
        · exact ⟨rfl, rfl⟩
  · by_cases h2 : s < t
    · rw [if_neg h1, if_pos h2, Prod.mk.injEq]
      constructor
      · rintro ⟨rfl, rfl⟩
        exact Or.inr ⟨rfl, rfl⟩
      · rintro (⟨rfl, rfl⟩ | ⟨rfl, rfl⟩)
        · exact absurd h2 h1
        · exact ⟨rfl, rfl⟩
    · have h3 : t < s := lt_of_le_of_ne (not_lt.1 h2) (Ne.symm hst)
      rw [if_neg h1, if_neg h2, Prod.mk.injEq]
      constructor
      · rintro ⟨rfl, rfl⟩
        exact Or.inl ⟨rfl, rfl⟩
      · rintro (⟨rfl, rfl⟩ | ⟨rfl, rfl⟩)
        · exact ⟨rfl, rfl⟩
        · exact absurd h3 h1

lemma edgeKey_fst_ne_snd {u v : String} (h : u ≠ v) :
    (edgeKey u v).1 ≠ (edgeKey u v).2 := by
  unfold edgeKey
  split
  · exact h
  · exact h.symm

/-- The counts with which a topic-counts list references documents trimming
to x, in order. -/
def dirList (tcs : List (String × ℕ)) (x : String) : List ℕ :=
  tcs.filterMap fun tc => if trimEndMd tc.1 = x then some tc.2 else none

lemma dirList_cons (tc : String × ℕ) (rest : List (String × ℕ)) (x : String) :
    dirList (tc :: rest) x =
      if trimEndMd tc.1 = x then tc.2 :: dirList rest x else dirList rest x := by
  simp only [dirList, List.filterMap_cons]
  by_cases h : trimEndMd tc.1 = x
  · rw [if_pos h, if_pos h]
  · rw [if_neg h, if_neg h]

lemma dirList_sum (tcs : List (String × ℕ)) (x : String) :
    (dirList tcs x).sum =
      (tcs.map fun tc => if trimEndMd tc.1 = x then tc.2 else 0).sum := by
  induction tcs with
  | nil => rfl
  | cons tc rest ih =>
      rw [dirList_cons]
      by_cases h : trimEndMd tc.1 = x
      · rw [if_pos h]
        simp [List.sum_cons, ih, h]
      · rw [if_neg h]
        simp [List.sum_cons, ih, h]

lemma dirList_eq_nil (tcs : List (String × ℕ)) (x : String) :
    dirList tcs x = [] ↔
      (tcs.any fun tc => decide (trimEndMd tc.1 = x)) = false := by
  induction tcs with
  | nil => simp [dirList]
  | cons tc rest ih =>
      rw [dirList_cons, List.any_cons]
      by_cases h : trimEndMd tc.1 = x
      · simp [h]
      · simp [h, ih]

lemma keyList_entryTcs (valid : List String) {s t : String} (hst : s ≠ t)
    (hs : s ∈ valid) (ht : t ∈ valid) (u : String) (tcs : List (String × ℕ)) :
    keyList (entryContribsTcs valid u tcs) (edgeKey s t) =
      if u = s then dirList tcs t
      else if u = t then dirList tcs s
      else [] := by
  induction tcs with
  | nil =>
      by_cases h1 : u = s <;> by_cases h2 : u = t <;>
        simp [entryContribsTcs, keyList, dirList, h1, h2]
  | cons tc rest ih =>
      simp only [entryContribsTcs, List.filterMap_cons] at ih ⊢
      by_cases hc : u ≠ trimEndMd tc.1 ∧ trimEndMd tc.1 ∈ valid
      · rw [if_pos hc, keyList_cons]
        by_cases hk : edgeKey u (trimEndMd tc.1) = edgeKey s t
        · rw [if_pos hk]
          rcases (edgeKey_eq_iff hst).1 hk with ⟨hus, hvt⟩ | ⟨hut, hvs⟩
          · subst hus
            rw [if_pos rfl] at ih ⊢
            rw [dirList_cons, if_pos hvt, ih]
          · subst hut
            have hts : ¬ u = s := fun h => hst (h.symm.trans rfl)
            rw [if_neg hts, if_pos rfl] at ih ⊢
            rw [dirList_cons, if_pos hvs, ih]
        · rw [if_neg hk]
          have h1 : ¬(u = s ∧ trimEndMd tc.1 = t) := fun ⟨a, b⟩ =>
            hk ((edgeKey_eq_iff hst).2 (Or.inl ⟨a, b⟩))
          have h2 : ¬(u = t ∧ trimEndMd tc.1 = s) := fun ⟨a, b⟩ =>
            hk ((edgeKey_eq_iff hst).2 (Or.inr ⟨a, b⟩))
          by_cases hus : u = s
          · have hvt : ¬ trimEndMd tc.1 = t := fun h => h1 ⟨hus, h⟩
            rw [if_pos hus] at ih ⊢
            rw [dirList_cons, if_neg hvt, ih]
          · by_cases hut : u = t
            · have hvs : ¬ trimEndMd tc.1 = s := fun h => h2 ⟨hut, h⟩
              rw [if_neg hus, if_pos hut] at ih ⊢
              rw [dirList_cons, if_neg hvs, ih]
            · rw [if_neg hus, if_neg hut] at ih ⊢
              exact ih
      · rw [if_neg hc]
        push_neg at hc
        by_cases hus : u = s
        · have hvt : ¬ trimEndMd tc.1 = t := by
            intro h
            have hne : u ≠ trimEndMd tc.1 := by
              rw [hus, h]
              exact hst
            have hmem : trimEndMd tc.1 ∈ valid := by
              rw [h]
              exact ht
            exact hc hne hmem
          rw [if_pos hus] at ih ⊢
          rw [dirList_cons, if_neg hvt, ih]
        · by_cases hut : u = t
          · have hvs : ¬ trimEndMd tc.1 = s := by
              intro h
              have hne : u ≠ trimEndMd tc.1 := by
                rw [hut, h]
                exact Ne.symm hst
              have hmem : trimEndMd tc.1 ∈ valid := by
                rw [h]
                exact hs
              exact hc hne hmem
            rw [if_neg hus, if_pos hut] at ih ⊢
            rw [dirList_cons, if_neg hvs, ih]
          · rw [if_neg hus, if_neg hut] at ih ⊢
            exact ih

lemma refCount_cons (e : String × Metadata) (rest : MetadataStore) (s t : String) :
    refCount (e :: rest) s t =
      (if trimEndMd e.1 = s then
        (e.2.topic_counts.map fun tc => if trimEndMd tc.1 = t then tc.2 else 0).sum
      else 0) + refCount rest s t := by
  simp [refCount]

lemma referencesB_cons (e : String × Metadata) (rest : MetadataStore) (s t : String) :
    referencesB (e :: rest) s t =
      ((decide (trimEndMd e.1 = s) &&
        e.2.topic_counts.any fun tc => decide (trimEndMd tc.1 = t)) ||
       referencesB rest s t) := by
  simp [referencesB]

lemma sum_keyList_contribs (valid : List String) {s t : String} (hst : s ≠ t)
    (hs : s ∈ valid) (ht : t ∈ valid) (entries : List (String × Metadata)) :
    (keyList (edgeContribsAux valid entries) (edgeKey s t)).sum =
      refCount entries s t + refCount entries t s := by
  induction entries with
  | nil => rfl
  | cons e rest ih =>
      simp only [edgeContribsAux, List.flatMap_cons] at ih ⊢
      rw [keyList_append, List.sum_append, ih]
      rw [show entryContribs valid e =
        entryContribsTcs valid (trimEndMd e.1) e.2.topic_counts from rfl]
      rw [keyList_entryTcs valid hst hs ht]
      rw [refCount_cons, refCount_cons]
      by_cases hus : trimEndMd e.1 = s
      · have hut : ¬ trimEndMd e.1 = t := fun h => hst (hus.symm.trans h)
        rw [if_pos hus, if_pos hus, if_neg hut, dirList_sum]
        omega
      · by_cases hut : trimEndMd e.1 = t
        · rw [if_neg hus, if_pos hut, if_neg hus, if_pos hut, dirList_sum]
          omega
        · rw [if_neg hus, if_neg hut, if_neg hus, if_neg hut]
          simp only [List.sum_nil]
          omega

lemma keyList_contribs_eq_nil (valid : List String) {s t : String} (hst : s ≠ t)
    (hs : s ∈ valid) (ht : t ∈ valid) (entries : List (String × Metadata)) :
    (keyList (edgeContribsAux valid entries) (edgeKey s t) = []) ↔
      referencesB entries s t = false ∧ referencesB entries t s = false := by
  induction entries with
  | nil => simp [edgeContribsAux, keyList_nil, referencesB]
  | cons e rest ih =>
      simp only [edgeContribsAux, List.flatMap_cons] at ih ⊢
      rw [keyList_append, List.append_eq_nil]
      rw [referencesB_cons, referencesB_cons]
      rw [show entryContribs valid e =
        entryContribsTcs valid (trimEndMd e.1) e.2.topic_counts from rfl]
      rw [keyList_entryTcs valid hst hs ht]
      by_cases hus : trimEndMd e.1 = s
      · have hut : ¬ trimEndMd e.1 = t := fun h => hst (hus.symm.trans h)
        rw [if_pos hus]
        simp only [hus, hut, decide_eq_true_eq, decide_eq_false_iff_not,
          Bool.true_and, Bool.false_and, Bool.false_or, Bool.or_eq_false_iff,
          decide_eq_true, decide_eq_false, ih, dirList_eq_nil]
        simp [hus, hut]
        tauto
      · by_cases hut : trimEndMd e.1 = t
        · rw [if_neg hus, if_pos hut]
          simp [hus, hut, ih, dirList_eq_nil]
          tauto
        · rw [if_neg hus, if_neg hut]
          simp [hus, hut, ih]

lemma edgeMapOf_build (order : List String) (base : ℕ → ℚ)
    (seed : ℕ → Vec3Data) (md : MetadataStore) :
    edgeMapOf (build_graph_from_metadata order base seed md) = edgeMap md := by
  simp only [edgeMapOf, build_graph_from_metadata, seedInitialPositions]
  rw [List.map_map]
  have h : ∀ kw ∈ edgeMap md,
      ((fun e => ((Edge.source e, Edge.target e), Edge.weight e)) ∘
        fun kw => Edge.new kw.1.1 kw.1.2 kw.2) kw = id kw := fun kw _ => rfl
  rw [List.map_congr_left h, List.map_id]

lemma fst_mem_addContrib {q : (String × String) × ℕ}
    {m : List ((String × String) × ℕ)} {key : String × String} {c : ℕ}
    (h : q ∈ addContrib m key c) : q.1 = key ∨ q.1 ∈ m.map Prod.fst := by
  induction m with
  | nil =>
      simp only [addContrib, List.mem_singleton] at h
      left
      rw [h]
  | cons p rest ih =>
      obtain ⟨k', w⟩ := p
      simp only [addContrib] at h
      split at h
      · rename_i heq
        rcases List.mem_cons.1 h with h | h
        · left
          rw [h, heq]
        · right
          exact List.mem_map_of_mem Prod.fst (List.mem_cons_of_mem _ h)
      · rcases List.mem_cons.1 h with h | h
        · right
          rw [h]
          exact List.mem_map_of_mem Prod.fst (List.mem_cons_self _ _)
        · rcases ih h with h1 | h1
          · exact Or.inl h1
          · right
            rcases List.mem_map.1 h1 with ⟨q', hq', he⟩
            exact List.mem_map.2 ⟨q', List.mem_cons_of_mem _ hq', he⟩

lemma fst_mem_foldl {q : (String × String) × ℕ}
    {l : List ((String × String) × ℕ)} {acc : List ((String × String) × ℕ)}
    (h : q ∈ l.foldl (fun m kc => addContrib m kc.1 kc.2) acc) :
    q.1 ∈ acc.map Prod.fst ∨ ∃ p ∈ l, p.1 = q.1 := by
  induction l generalizing acc with
  | nil => exact Or.inl (List.mem_map_of_mem Prod.fst h)
  | cons p rest ih =>
      simp only [List.foldl_cons] at h
      rcases ih h with h1 | ⟨p', hp', he⟩
      · rcases List.mem_map.1 h1 with ⟨q', hq', he⟩
        rcases fst_mem_addContrib hq' with h2 | h2
        · right
          exact ⟨p, List.mem_cons_self _ _, by rw [← he, h2]⟩
        · left
          rw [← he]
          exact h2
      · right
        exact ⟨p', List.mem_cons_of_mem _ hp', he⟩

lemma contrib_key_shape {q : (String × String) × ℕ} {valid : List String}
    {entries : List (String × Metadata)} (h : q ∈ edgeContribsAux valid entries) :
    ∃ u v : String, u ≠ v ∧ q.1 = edgeKey u v := by
  obtain ⟨e, _, hq⟩ := List.mem_flatMap.1 h
  obtain ⟨tc, _, hsome⟩ := List.mem_filterMap.1 hq
  split at hsome
  · rename_i hcond
    refine ⟨trimEndMd e.1, trimEndMd tc.1, hcond.1, ?_⟩
    rw [← Option.some_injective _ hsome]
  · cases hsome

lemma build_no_self_edges (order : List String) (base : ℕ → ℚ)
    (seed : ℕ → Vec3Data) (md : MetadataStore) :
    ∀ e ∈ (build_graph_from_metadata order base seed md).edges,
      e.source ≠ e.target := by
  intro e he
  have he' : e ∈ (edgeMap md).map fun kw => Edge.new kw.1.1 kw.1.2 kw.2 := by
    simpa [build_graph_from_metadata, seedInitialPositions] using he
  obtain ⟨kw, hkw, rfl⟩ := List.mem_map.1 he'
  have h2 := @fst_mem_foldl kw (edgeContribs md) [] hkw
  rcases h2 with h2 | ⟨p, hp, hpe⟩
  · simp at h2
  · obtain ⟨u, v, huv, hkey⟩ := contrib_key_shape hp
    have hk : kw.1 = edgeKey u v := by rw [← hpe, hkey]
    simpa [Edge.new, hk] using edgeKey_fst_ne_snd huv

/-- C2: for every metadata store and distinct documents s and t both
resolving to existing nodes, the built graph has an edge for the unordered
pair exactly when at least one of them references the other in its topic
counts, the weight of the unordered key (min, max) is the sum of the two
directed reference counts c_st + c_ts, and no edge of the built graph has
equal endpoints.  (The f32 weight is a sum of usize counts, modelled
exactly as a Nat.) -/
theorem build_edge_weight_rule (order : List String) (base : ℕ → ℚ)
    (seed : ℕ → Vec3Data) (md : MetadataStore) (s t : String) (hst : s ≠ t)
    (hs : s ∈ validNodesList md) (ht : t ∈ validNodesList md) :
    edgeWeight (build_graph_from_metadata order base seed md) s t =
      (if referencesB md s t || referencesB md t s then
        some (refCount md s t + refCount md t s)
      else none) ∧
    ∀ e ∈ (build_graph_from_metadata order base seed md).edges,
      e.source ≠ e.target := by
  refine ⟨?_, build_no_self_edges order base seed md⟩
  rw [edgeWeight, edgeMapOf_build]
  rw [show edgeMap md =
    (edgeContribsAux (validNodesList md) md).foldl
      (fun m kc => addContrib m kc.1 kc.2) [] from rfl]
  rw [alookup_foldl_addContrib]
  have hchar := keyList_contribs_eq_nil (validNodesList md) hst hs ht md
  have hsum := sum_keyList_contribs (validNodesList md) hst hs ht md
  cases hrb : (referencesB md s t || referencesB md t s) with
  | false =>
      have hboth := Bool.or_eq_false_iff.1 hrb
      have hnil : keyList (edgeContribsAux (validNodesList md) md) (edgeKey s t) = [] :=
        hchar.2 hboth
      dsimp only [alookup]
      simp [hnil]
  | true =>
      have hne : keyList (edgeContribsAux (validNodesList md) md) (edgeKey s t) ≠ [] := by
        intro hnil
        rcases hchar.1 hnil with ⟨h1, h2⟩
        rw [h1, h2] at hrb
        simp at hrb
      dsimp only [alookup]
      rw [if_neg hne, hsum]
      simp

/-- The metadata of end-to-end scenario 2: a.md references b.md twice,
b.md references a.md once. -/
def mdW : MetadataStore :=
  [("a.md", { mdEntry "a.md" with topic_counts := [("b.md", 2)] }),
   ("b.md", { mdEntry "b.md" with topic_counts := [("a.md", 1)] })]

/-- Witness for `build_edge_weight_rule`: with a.md referencing b.md twice
and b.md referencing a.md once, the edge (a, b) carries weight 2 + 1. -/
theorem build_edge_weight_rule_witness :
    (("a" : String) ≠ "b" ∧ "a" ∈ validNodesList mdW ∧ "b" ∈ validNodesList mdW) ∧
    edgeWeight (build_graph_from_metadata ["a", "b"] base0 seed0 mdW) "a" "b" =
      (if referencesB mdW "a" "b" || referencesB mdW "b" "a" then
        some (refCount mdW "a" "b" + refCount mdW "b" "a")
      else none) :=
  ⟨⟨by decide, by decide, by decide⟩,
    (build_edge_weight_rule ["a", "b"] base0 seed0 mdW "a" "b" (by decide) (by decide)
      (by decide)).1⟩

lemma buildNode_id (md : MetadataStore) (base : ℕ → ℚ) (nid : String) :
    (buildNode md base nid).id = nid := by
  unfold buildNode
  split <;> rfl

lemma seedNodes_map_id (seed : ℕ → Vec3Data) (i : ℕ) (l : List Node) :
    (seedNodes seed i l).map Node.id = l.map Node.id := by
  induction l generalizing i with
  | nil => rfl
  | cons n rest ih =>
      simp only [seedNodes, List.map_cons]
      rw [ih]

lemma build_nodes_map_id (order : List String) (base : ℕ → ℚ)
    (seed : ℕ → Vec3Data) (md : MetadataStore) :
    (build_graph_from_metadata order base seed md).nodes.map Node.id = order := by
  simp only [build_graph_from_metadata, seedInitialPositions]
  rw [seedNodes_map_id, List.map_map]
  have h : ∀ nid ∈ order, (Node.id ∘ buildNode md base) nid = id nid :=
    fun nid _ => buildNode_id md base nid
  rw [List.map_congr_left h, List.map_id]

lemma entryContribsTcs_congr (valid valid' : List String) (u : String)
    (tcs : List (String × ℕ)) (hv : ∀ x : String, x ∈ valid ↔ x ∈ valid') :
    entryContribsTcs valid u tcs = entryContribsTcs valid' u tcs := by
  unfold entryContribsTcs
  apply List.filterMap_congr
  intro tc _
  exact if_congr (and_congr_right fun _ => hv (trimEndMd tc.1)) rfl rfl

lemma edgeContribsAux_perm {md1 md2 : MetadataStore} (hmd : md1.Perm md2)
    (valid1 valid2 : List String) (hv : ∀ x : String, x ∈ valid1 ↔ x ∈ valid2) :
    (edgeContribsAux valid1 md1).Perm (edgeContribsAux valid2 md2) := by
  have hfun : entryContribs valid1 = entryContribs valid2 := by
    funext e
    exact entryContribsTcs_congr valid1 valid2 (trimEndMd e.1) e.2.topic_counts hv
  unfold edgeContribsAux
  rw [hfun]
  exact List.Perm.flatMap_right (entryContribs valid2) hmd

lemma alookup_edgeMap_perm {md1 md2 : MetadataStore} (hmd : md1.Perm md2)
    (k : String × String) :
    alookup (edgeMap md1) k = alookup (edgeMap md2) k := by
  have hvalid : (validNodesList md1).Perm (validNodesList md2) := by
    unfold validNodesList
    exact (List.Perm.map (fun e => trimEndMd e.1) hmd).dedup
  have hv : ∀ x : String, x ∈ validNodesList md1 ↔ x ∈ validNodesList md2 :=
    fun x => hvalid.mem_iff
  have hperm := edgeContribsAux_perm hmd (validNodesList md1) (validNodesList md2) hv
  have hkl : (keyList (edgeContribsAux (validNodesList md1) md1) k).Perm
      (keyList (edgeContribsAux (validNodesList md2) md2) k) :=
    (hperm.filter _).map _
  have hsum := hkl.sum_eq
  have hnil : (keyList (edgeContribsAux (validNodesList md1) md1) k = []) ↔
      (keyList (edgeContribsAux (validNodesList md2) md2) k = []) := by
    rw [← List.length_eq_zero, ← List.length_eq_zero, hkl.length_eq]
  rw [show edgeMap md1 =
    (edgeContribsAux (validNodesList md1) md1).foldl
      (fun m kc => addContrib m kc.1 kc.2) [] from rfl]
  rw [show edgeMap md2 =
    (edgeContribsAux (validNodesList md2) md2).foldl
      (fun m kc => addContrib m kc.1 kc.2) [] from rfl]
  rw [alookup_foldl_addContrib, alookup_foldl_addContrib]
  dsimp only [alookup]
  by_cases h : keyList (edgeContribsAux (validNodesList md1) md1) k = []
  · rw [if_pos h, if_pos (hnil.1 h)]
  · rw [if_neg h, if_neg (fun h2 => h (hnil.2 h2)), hsum]

/-- C6 amended: two runs of graph build on the same metadata (the second
run seeing the store and the valid-node HashSet in any other iteration
order, and drawing any other position jitter) produce the same node id
multiset and extensionally the same edge-weight map; but the node sequence
order follows the HashSet iteration order, not the metadata iteration
order, the edge list is not sorted, and positions are re-randomized. -/
theorem build_same_metadata_collections (md1 md2 : MetadataStore)
    (hmd : md1.Perm md2) (order1 order2 : List String) (base : ℕ → ℚ)
    (seed1 seed2 : ℕ → Vec3Data)
    (h1 : order1.Perm (validNodesList md1)) (h2 : order2.Perm (validNodesList md2)) :
    ((build_graph_from_metadata order1 base seed1 md1).nodes.map Node.id).Perm
      ((build_graph_from_metadata order2 base seed2 md2).nodes.map Node.id) ∧
    ∀ s t : String,
      edgeWeight (build_graph_from_metadata order1 base seed1 md1) s t =
        edgeWeight (build_graph_from_metadata order2 base seed2 md2) s t := by
  constructor
  · rw [build_nodes_map_id, build_nodes_map_id]
    have hvalid : (validNodesList md1).Perm (validNodesList md2) := by
      unfold validNodesList
      exact (List.Perm.map (fun e => trimEndMd e.1) hmd).dedup
    exact (h1.trans hvalid).trans h2.symm
  · intro s t
    rw [edgeWeight, edgeWeight, edgeMapOf_build, edgeMapOf_build]
    exact alookup_edgeMap_perm hmd (edgeKey s t)

/-- A two-document metadata store with no references. -/
def mdAB : MetadataStore := [("a.md", mdEntry "a.md"), ("b.md", mdEntry "b.md")]

/-- C6 counterexample: two runs of build on the same two-document metadata,
both using legal iteration orders of the valid-node HashSet (a Rust HashSet
iterates in an unspecified, randomly seeded order), produce different node
sequences — so the node sequences of two runs are not identical and do not
follow metadata iteration order (the first run here already disagrees with
the second; at most one of them can follow the store order). -/
theorem build_determinism_counterexample :
    (["a", "b"] : List String).Perm (validNodesList mdAB) ∧
    (["b", "a"] : List String).Perm (validNodesList mdAB) ∧
    (build_graph_from_metadata ["a", "b"] base0 seed0 mdAB).nodes.map Node.id ≠
      (build_graph_from_metadata ["b", "a"] base0 seed0 mdAB).nodes.map Node.id := by
  refine ⟨by decide, by decide, ?_⟩
  rw [build_nodes_map_id, build_nodes_map_id]
  decide

/-- Witness for `build_same_metadata_collections`: the two runs above agree
on the node id multiset and on the (a, b) edge weight. -/
theorem build_same_metadata_collections_witness :
    (mdAB.Perm mdAB ∧ (["a", "b"] : List String).Perm (validNodesList mdAB) ∧
      (["b", "a"] : List String).Perm (validNodesList mdAB)) ∧
    edgeWeight (build_graph_from_metadata ["a", "b"] base0 seed0 mdAB) "a" "b" =
      edgeWeight (build_graph_from_metadata ["b", "a"] base0 seed0 mdAB) "a" "b" :=
  ⟨⟨List.Perm.refl mdAB, by decide, by decide⟩,
    (build_same_metadata_collections mdAB mdAB (List.Perm.refl mdAB) ["a", "b"]
      ["b", "a"] base0 seed0 seed0 (by decide) (by decide)).2 "a" "b"⟩

end SpringThing
